import Mathlib

/-!
Verification of the msdf-text-engine core subsystems against their source:
- `BoxManager` (src/library/noteBoxes/BoxManager.ts): stable-id rectangle pool
  with O(1) swap-with-last removal.
- `TextManager.grow` (library/base/TextManager.ts): amortized growth of the
  glyph instance pool, copying live instance data into the new storage.
- `TextArea` (src/library/noteBoxes/TextArea.ts): glyph layout engine with
  word wrap, a visual position index, and inverse caret lookup.

JS numbers are modelled as exact integers (ℤ): every quantity the verified
logic computes with (font advances, line heights, box sizes, cursor and
distance arithmetic, capacities) is integral in the font descriptors and
scenarios of the claims, and the remaining numeric payload fields (colors,
alpha) are only stored and compared, never computed with. Indices and ids
are ℕ.
-/

namespace MsdfSpec

/-! ### JS `Map` model (association list; keys are unique by construction) -/

/-- `Map.get`: value of the first entry with the given key. -/
def alistGet {α β : Type} [DecidableEq α] (m : List (α × β)) (k : α) : Option β :=
  match m with
  | [] => none
  | (k', v) :: rest => if k' = k then some v else alistGet rest k

/-- `Map.set`: overwrite the entry with the given key, or append a new one. -/
def alistSet {α β : Type} [DecidableEq α] (m : List (α × β)) (k : α) (v : β) : List (α × β) :=
  match m with
  | [] => [(k, v)]
  | (k', v') :: rest => if k' = k then (k, v) :: rest else (k', v') :: alistSet rest k v

/-- `Map.delete`: drop the entry with the given key. -/
def alistDel {α β : Type} [DecidableEq α] (m : List (α × β)) (k : α) : List (α × β) :=
  match m with
  | [] => []
  | (k', v') :: rest => if k' = k then alistDel rest k else (k', v') :: alistDel rest k

theorem alistGet_set_self {α β : Type} [DecidableEq α] (m : List (α × β)) (k : α) (v : β) :
    alistGet (alistSet m k v) k = some v := by
  induction m with
  | nil => simp [alistGet, alistSet]
  | cons e rest ih =>
    obtain ⟨k', v'⟩ := e
    by_cases h : k' = k
    · simp [alistGet, alistSet, h]
    · simp [alistGet, alistSet, h, ih]

theorem alistGet_set_ne {α β : Type} [DecidableEq α] (m : List (α × β)) (k k₀ : α) (v : β)
    (h : k₀ ≠ k) : alistGet (alistSet m k v) k₀ = alistGet m k₀ := by
  have hne : ¬ k = k₀ := fun h' => h h'.symm
  induction m with
  | nil => simp [alistGet, alistSet, hne]
  | cons e rest ih =>
    obtain ⟨k', v'⟩ := e
    by_cases hk : k' = k
    · subst hk
      simp [alistGet, alistSet, hne]
    · by_cases hk₀ : k' = k₀
      · simp [alistGet, alistSet, hk, hk₀, h]
      · simp [alistGet, alistSet, hk, hk₀, ih]

theorem alistGet_del_self {α β : Type} [DecidableEq α] (m : List (α × β)) (k : α) :
    alistGet (alistDel m k) k = none := by
  induction m with
  | nil => simp [alistGet, alistDel]
  | cons e rest ih =>
    obtain ⟨k', v'⟩ := e
    by_cases h : k' = k
    · simpa [alistDel, h] using ih
    · simpa [alistDel, alistGet, h] using ih

theorem alistGet_del_ne {α β : Type} [DecidableEq α] (m : List (α × β)) (k k₀ : α)
    (h : k₀ ≠ k) : alistGet (alistDel m k) k₀ = alistGet m k₀ := by
  have hne : ¬ k = k₀ := fun h' => h h'.symm
  induction m with
  | nil => simp [alistGet, alistDel]
  | cons e rest ih =>
    obtain ⟨k', v'⟩ := e
    by_cases hk : k' = k
    · subst hk
      simpa [alistDel, alistGet, hne] using ih
    · by_cases hk₀ : k' = k₀
      · simp [alistDel, alistGet, hk, hk₀, h]
      · simp [alistDel, alistGet, hk, hk₀, ih]

/-! ### BoxManager (src/library/noteBoxes/BoxManager.ts) -/

/-- `THREE.Vector3`, exact-number model. -/
structure Vec3 where
  x : ℤ
  y : ℤ
  z : ℤ
deriving DecidableEq, Repr

/-- `THREE.Color`, exact-number model. -/
structure Color3 where
  r : ℤ
  g : ℤ
  b : ℤ
deriving DecidableEq, Repr

/-- `BoxInstance`: one live rectangle record of the pool. -/
structure BoxInstance where
  logicalId : ℕ
  position : Vec3
  scale : Vec3
  color1 : Color3
  color2 : Color3
  alpha : ℤ
  gradientMode : ℕ
deriving DecidableEq, Repr

/-- The CPU-side state of `BoxManager` (mesh/GPU mirroring omitted: it is a
write-through view of `instances` and carries no extra state). -/
structure BoxManager where
  maxBoxes : ℕ
  instances : List BoxInstance
  idCounter : ℕ
  idToIndex : List (ℕ × ℕ)
deriving DecidableEq, Repr

/-- The `BoxManager` constructor: empty pool. -/
def mkBoxManager (maxBoxes : ℕ) : BoxManager :=
  ⟨maxBoxes, [], 0, []⟩

/-- `BoxManager.addBox`: returns the new logical id, or `-1` when the pool is
at its fixed ceiling. The new record is appended at `physicalIndex =
instances.length` and mapped under `logicalId = idCounter`. `color2.getD
color1` models the `color2 || color1` default; `mode || GradientMode.NONE` is
the identity on mode values. -/
def addBox (m : BoxManager) (position scale : Vec3) (color1 : Color3)
    (color2 : Option Color3) (alpha : ℤ) (mode : ℕ) : Int × BoxManager :=
  if m.instances.length ≥ m.maxBoxes then (-1, m)
  else
    ((m.idCounter : Int),
      { m with
          instances := m.instances ++
            [⟨m.idCounter, position, scale, color1, color2.getD color1, alpha, mode⟩]
          idToIndex := alistSet m.idToIndex m.idCounter m.instances.length
          idCounter := m.idCounter + 1 })

/-- The swap-with-last phase of `removeBox`: unless the removed slot is the
last live slot, copy the last instance into it and repoint that instance's
id mapping. -/
def removeSwapStep (m : BoxManager) (index : ℕ) : BoxManager :=
  if index = m.instances.length - 1 then m
  else
    match m.instances[m.instances.length - 1]? with
    | some lastInstance =>
      { m with
          instances := m.instances.set index lastInstance
          idToIndex := alistSet m.idToIndex lastInstance.logicalId index }
    | none => m

/-- `BoxManager.removeBox`: swap-with-last removal; no-op on unknown ids.
After the swap phase, the last record is popped and the id unmapped. -/
def removeBox (m : BoxManager) (lid : ℕ) : BoxManager :=
  match alistGet m.idToIndex lid with
  | none => m
  | some index =>
    { removeSwapStep m index with
        instances := (removeSwapStep m index).instances.dropLast
        idToIndex := alistDel (removeSwapStep m index).idToIndex lid }

/-- `BoxManager.updateBox`: overwrite the record in place; no-op on unknown ids. -/
def updateBox (m : BoxManager) (lid : ℕ) (position scale : Vec3) (color1 : Color3)
    (color2 : Option Color3) (alpha : ℤ) (mode : ℕ) : BoxManager :=
  match alistGet m.idToIndex lid with
  | none => m
  | some index =>
    match m.instances[index]? with
    | none => m
    | some inst =>
      { m with
          instances := m.instances.set index
            { inst with
                position := position
                scale := scale
                color1 := color1
                color2 := color2.getD color1
                alpha := alpha
                gradientMode := mode } }

/-- `BoxManager.clear`: drop everything and reset the id counter. -/
def clearBoxes (m : BoxManager) : BoxManager :=
  { m with instances := [], idToIndex := [], idCounter := 0 }

/-- One public `BoxManager` mutation. -/
inductive BoxOp where
  | add (position scale : Vec3) (color1 : Color3) (color2 : Option Color3)
      (alpha : ℤ) (mode : ℕ)
  | remove (lid : ℕ)
  | update (lid : ℕ) (position scale : Vec3) (color1 : Color3) (color2 : Option Color3)
      (alpha : ℤ) (mode : ℕ)
  | clearAll
deriving DecidableEq, Repr

def applyBoxOp (m : BoxManager) (op : BoxOp) : BoxManager :=
  match op with
  | .add p s c1 c2 a md => (addBox m p s c1 c2 a md).2
  | .remove lid => removeBox m lid
  | .update lid p s c1 c2 a md => updateBox m lid p s c1 c2 a md
  | .clearAll => clearBoxes m

/-- Run a sequence of operations from the empty pool. -/
def runBoxOps (maxB : ℕ) (ops : List BoxOp) : BoxManager :=
  ops.foldl applyBoxOp (mkBoxManager maxB)

/-- The stable-id invariant: every live id maps to a physical slot below
`liveCount` (`= instances.length`), and the record stored there carries that
same id back (round-trip). -/
def BoxInv (m : BoxManager) : Prop :=
  ∀ lid slot, alistGet m.idToIndex lid = some slot →
    slot < m.instances.length ∧
    ∃ inst, m.instances[slot]? = some inst ∧ inst.logicalId = lid

theorem boxInv_mk (maxB : ℕ) : BoxInv (mkBoxManager maxB) := by
  intro lid slot h
  simp [mkBoxManager, alistGet] at h

theorem boxInv_addBox (m : BoxManager) (hm : BoxInv m) (p s : Vec3) (c1 : Color3)
    (c2 : Option Color3) (a : ℤ) (md : ℕ) : BoxInv (addBox m p s c1 c2 a md).2 := by
  unfold addBox
  by_cases hfull : m.instances.length ≥ m.maxBoxes
  · simpa [hfull] using hm
  · rw [if_neg hfull]
    intro lid slot hget
    by_cases hlid : lid = m.idCounter
    · subst hlid
      rw [alistGet_set_self] at hget
      cases hget
      refine ⟨by simp, _, List.getElem?_concat_length _ _, rfl⟩
    · rw [alistGet_set_ne _ _ _ _ hlid] at hget
      obtain ⟨hslot, inst, hinst, hid⟩ := hm lid slot hget
      refine ⟨by simp; omega, inst, ?_, hid⟩
      rw [List.getElem?_append_left hslot]
      exact hinst

theorem boxInv_removeBox (m : BoxManager) (hm : BoxInv m) (lid : ℕ) :
    BoxInv (removeBox m lid) := by
  unfold removeBox removeSwapStep
  cases hidx : alistGet m.idToIndex lid with
  | none => exact hm
  | some index =>
    dsimp only
    obtain ⟨hindex, inst0, hinst0, hid0⟩ := hm lid index hidx
    have hn : 0 < m.instances.length := Nat.lt_of_le_of_lt (Nat.zero_le _) hindex
    by_cases hlast : index = m.instances.length - 1
    · rw [if_pos hlast]
      intro lid' slot' hget'
      by_cases hl : lid' = lid
      · subst hl
        rw [alistGet_del_self] at hget'
        cases hget'
      · rw [alistGet_del_ne _ _ _ hl] at hget'
        obtain ⟨hslot', inst', hinst', hid'⟩ := hm lid' slot' hget'
        have hne : slot' ≠ m.instances.length - 1 := by
          intro heq
          rw [heq, ← hlast, hinst0] at hinst'
          cases hinst'
          exact hl (hid'.symm.trans hid0)
        have hlt : slot' < m.instances.length - 1 :=
          Nat.lt_of_le_of_ne (Nat.le_pred_of_lt hslot') hne
        refine ⟨by simpa [List.length_dropLast] using hlt, inst', ?_, hid'⟩
        rw [List.getElem?_dropLast, if_pos hlt]
        exact hinst'
    · rw [if_neg hlast]
      have hidxlt : index < m.instances.length - 1 :=
        Nat.lt_of_le_of_ne (Nat.le_pred_of_lt hindex) hlast
      cases hlastget : m.instances[m.instances.length - 1]? with
      | none =>
        exact absurd hlastget (by simp [List.getElem?_eq_none_iff]; omega)
      | some lastInstance =>
        intro lid' slot' hget'
        simp only at hget'
        by_cases hl : lid' = lid
        · subst hl
          rw [alistGet_del_self] at hget'
          cases hget'
        · rw [alistGet_del_ne _ _ _ hl] at hget'
          by_cases hll : lid' = lastInstance.logicalId
          · subst hll
            rw [alistGet_set_self] at hget'
            cases hget'
            have hlen : (m.instances.set index lastInstance).length = m.instances.length :=
              List.length_set ..
            refine ⟨by simp [List.length_dropLast, hlen]; omega, lastInstance, ?_, rfl⟩
            rw [List.getElem?_dropLast, hlen, if_pos hidxlt]
            exact List.getElem?_set_self (by omega)
          · rw [alistGet_set_ne _ _ _ _ hll] at hget'
            obtain ⟨hslot', inst', hinst', hid'⟩ := hm lid' slot' hget'
            have hne1 : slot' ≠ index := by
              intro heq
              rw [heq, hinst0] at hinst'
              cases hinst'
              exact hl (hid'.symm.trans hid0)
            have hne2 : slot' ≠ m.instances.length - 1 := by
              intro heq
              rw [heq, hlastget] at hinst'
              cases hinst'
              exact hll hid'.symm
            have hlt : slot' < m.instances.length - 1 :=
              Nat.lt_of_le_of_ne (Nat.le_pred_of_lt hslot') hne2
            have hlen : (m.instances.set index lastInstance).length = m.instances.length :=
              List.length_set ..
            refine ⟨by simp [List.length_dropLast, hlen]; omega, inst', ?_, hid'⟩
            rw [List.getElem?_dropLast, hlen, if_pos hlt,
              List.getElem?_set_ne (fun h => hne1 h.symm)]
            exact hinst'

theorem boxInv_updateBox (m : BoxManager) (hm : BoxInv m) (lid : ℕ) (p s : Vec3)
    (c1 : Color3) (c2 : Option Color3) (a : ℤ) (md : ℕ) :
    BoxInv (updateBox m lid p s c1 c2 a md) := by
  unfold updateBox
  cases hidx : alistGet m.idToIndex lid with
  | none => exact hm
  | some index =>
    dsimp only
    cases hin : m.instances[index]? with
    | none => exact hm
    | some inst =>
      dsimp only
      intro lid' slot' hget'
      obtain ⟨hslot', inst', hinst', hid'⟩ := hm lid' slot' hget'
      by_cases hs : slot' = index
      · subst hs
        rw [hin] at hinst'
        cases hinst'
        refine ⟨by simpa using hslot', _, List.getElem?_set_self (by simpa using hslot'), hid'⟩
      · refine ⟨by simpa using hslot', inst', ?_, hid'⟩
        rw [List.getElem?_set_ne (fun h => hs h.symm)]
        exact hinst'

theorem boxInv_clearBoxes (m : BoxManager) : BoxInv (clearBoxes m) := by
  intro lid slot h
  simp [clearBoxes, alistGet] at h

theorem boxInv_applyBoxOp (m : BoxManager) (hm : BoxInv m) (op : BoxOp) :
    BoxInv (applyBoxOp m op) := by
  cases op with
  | add p s c1 c2 a md => exact boxInv_addBox m hm p s c1 c2 a md
  | remove lid => exact boxInv_removeBox m hm lid
  | update lid p s c1 c2 a md => exact boxInv_updateBox m hm lid p s c1 c2 a md
  | clearAll => exact boxInv_clearBoxes m

theorem boxInv_foldl (ops : List BoxOp) (m : BoxManager) (hm : BoxInv m) :
    BoxInv (ops.foldl applyBoxOp m) := by
  induction ops generalizing m with
  | nil => exact hm
  | cons op rest ih => exact ih _ (boxInv_applyBoxOp m hm op)

/-- `addBox` at the fixed ceiling: sentinel `-1`, state untouched. -/
theorem addBox_of_full (m : BoxManager) (p s : Vec3) (c1 : Color3) (c2 : Option Color3)
    (a : ℤ) (md : ℕ) (h : m.maxBoxes ≤ m.instances.length) :
    addBox m p s c1 c2 a md = (-1, m) := by
  unfold addBox
  rw [if_pos h]

/-- `addBox` below the ceiling: issues `idCounter`, appends, bumps the counter. -/
theorem addBox_of_not_full (m : BoxManager) (p s : Vec3) (c1 : Color3) (c2 : Option Color3)
    (a : ℤ) (md : ℕ) (h : ¬ m.maxBoxes ≤ m.instances.length) :
    addBox m p s c1 c2 a md =
      ((m.idCounter : Int),
        { m with
            instances := m.instances ++
              [⟨m.idCounter, p, s, c1, c2.getD c1, a, md⟩]
            idToIndex := alistSet m.idToIndex m.idCounter m.instances.length
            idCounter := m.idCounter + 1 }) := by
  unfold addBox
  rw [if_neg h]

theorem removeBox_idCounter (m : BoxManager) (lid : ℕ) :
    (removeBox m lid).idCounter = m.idCounter := by
  unfold removeBox removeSwapStep
  cases alistGet m.idToIndex lid with
  | none => rfl
  | some index =>
    dsimp only
    by_cases h : index = m.instances.length - 1
    · rw [if_pos h]
    · rw [if_neg h]
      cases m.instances[m.instances.length - 1]? <;> rfl

theorem updateBox_idCounter (m : BoxManager) (lid : ℕ) (p s : Vec3) (c1 : Color3)
    (c2 : Option Color3) (a : ℤ) (md : ℕ) :
    (updateBox m lid p s c1 c2 a md).idCounter = m.idCounter := by
  unfold updateBox
  cases alistGet m.idToIndex lid with
  | none => rfl
  | some index =>
    dsimp only
    cases m.instances[index]? <;> rfl

/-- Run a sequence of operations from the empty pool, logging every id
actually issued by `addBox` (the `-1` failure sentinel is not an issued id). -/
def boxOpLogStep (acc : BoxManager × List Int) (op : BoxOp) : BoxManager × List Int :=
  match op with
  | .add p s c1 c2 a md =>
    ((addBox acc.1 p s c1 c2 a md).2,
      if (addBox acc.1 p s c1 c2 a md).1 = -1 then acc.2
      else acc.2 ++ [(addBox acc.1 p s c1 c2 a md).1])
  | _ => (applyBoxOp acc.1 op, acc.2)

def runBoxOpsLog (maxB : ℕ) (ops : List BoxOp) : BoxManager × List Int :=
  ops.foldl boxOpLogStep (mkBoxManager maxB, [])

theorem boxOpLogStep_inv (acc : BoxManager × List Int) (op : BoxOp)
    (hop : op ≠ BoxOp.clearAll)
    (h1 : ∀ x ∈ acc.2, x < (acc.1.idCounter : Int))
    (h2 : acc.2.Pairwise (· < ·)) :
    (∀ x ∈ (boxOpLogStep acc op).2, x < ((boxOpLogStep acc op).1.idCounter : Int)) ∧
    (boxOpLogStep acc op).2.Pairwise (· < ·) := by
  cases op with
  | add p s c1 c2 a md =>
    by_cases hfull : acc.1.maxBoxes ≤ acc.1.instances.length
    · have hstep : boxOpLogStep acc (.add p s c1 c2 a md) = (acc.1, acc.2) := by
        simp [boxOpLogStep, addBox_of_full acc.1 p s c1 c2 a md hfull]
      rw [hstep]
      exact ⟨h1, h2⟩
    · have hne : ¬ ((acc.1.idCounter : Int) = -1) := by omega
      have hstep : (boxOpLogStep acc (.add p s c1 c2 a md)).2 =
          acc.2 ++ [(acc.1.idCounter : Int)] := by
        simp only [boxOpLogStep, addBox_of_not_full acc.1 p s c1 c2 a md hfull]
        rw [if_neg hne]
      have hcnt : (boxOpLogStep acc (.add p s c1 c2 a md)).1.idCounter =
          acc.1.idCounter + 1 := by
        simp only [boxOpLogStep, addBox_of_not_full acc.1 p s c1 c2 a md hfull]
      rw [hstep, hcnt]
      constructor
      · intro x hx
        rcases List.mem_append.mp hx with hx | hx
        · have := h1 x hx
          omega
        · simp only [List.mem_singleton] at hx
          subst hx
          omega
      · rw [List.pairwise_append]
        refine ⟨h2, List.pairwise_singleton _ _, ?_⟩
        intro x hx y hy
        simp only [List.mem_singleton] at hy
        subst hy
        exact h1 x hx
  | remove lid =>
    refine ⟨?_, h2⟩
    intro x hx
    have := h1 x hx
    simpa [boxOpLogStep, applyBoxOp, removeBox_idCounter] using this
  | update lid p s c1 c2 a md =>
    refine ⟨?_, h2⟩
    intro x hx
    have := h1 x hx
    simpa [boxOpLogStep, applyBoxOp, updateBox_idCounter] using this
  | clearAll => exact absurd rfl hop

/-- Sample data used to instantiate theorems at concrete inputs. -/
def sampleVec : Vec3 := ⟨1, 2, 3⟩

def sampleColor : Color3 := ⟨1, 0, 0⟩

def sampleAdd : BoxOp := .add sampleVec sampleVec sampleColor none 1 0

/-- Claim C1: for every sequence of addBox/removeBox/updateBox operations
(and clears) from the empty pool, every live logical id maps to a physical
slot in `[0, liveCount)`, the record stored at `slot(id)` carries that same
id back, and no two live ids map to the same slot. -/
theorem boxManager_stable_id_invariant (maxB : ℕ) (ops : List BoxOp) :
    (∀ lid slot, alistGet (runBoxOps maxB ops).idToIndex lid = some slot →
      slot < (runBoxOps maxB ops).instances.length ∧
      ∃ inst, (runBoxOps maxB ops).instances[slot]? = some inst ∧ inst.logicalId = lid) ∧
    (∀ lid₁ lid₂ slot,
      alistGet (runBoxOps maxB ops).idToIndex lid₁ = some slot →
      alistGet (runBoxOps maxB ops).idToIndex lid₂ = some slot → lid₁ = lid₂) := by
  have hinv : BoxInv (runBoxOps maxB ops) := boxInv_foldl ops _ (boxInv_mk maxB)
  refine ⟨hinv, ?_⟩
  intro lid₁ lid₂ slot h₁ h₂
  obtain ⟨_, i₁, hi₁, hlid₁⟩ := hinv lid₁ slot h₁
  obtain ⟨_, i₂, hi₂, hlid₂⟩ := hinv lid₂ slot h₂
  rw [hi₁] at hi₂
  cases hi₂
  exact hlid₁.symm.trans hlid₂

/-- Concrete instantiation of the stable-id invariant: after
`add, add, remove 0`, id 1 lives in slot 0 and round-trips. -/
theorem boxManager_stable_id_invariant_witness :
    alistGet (runBoxOps 5 [sampleAdd, sampleAdd, .remove 0]).idToIndex 1 = some 0 ∧
    (0 < (runBoxOps 5 [sampleAdd, sampleAdd, .remove 0]).instances.length ∧
      ∃ inst, (runBoxOps 5 [sampleAdd, sampleAdd, .remove 0]).instances[0]? = some inst ∧
        inst.logicalId = 1) :=
  ⟨by decide, (boxManager_stable_id_invariant 5 [sampleAdd, sampleAdd, .remove 0]).1 1 0
    (by decide)⟩

/-- Claim C6: when `liveCount` has reached the configured maximum, `addBox`
returns the sentinel `-1` and leaves the whole pool state unchanged. -/
theorem addBox_at_ceiling_returns_sentinel (m : BoxManager) (p s : Vec3) (c1 : Color3)
    (c2 : Option Color3) (a : ℤ) (md : ℕ)
    (h : m.maxBoxes ≤ m.instances.length) :
    addBox m p s c1 c2 a md = (-1, m) :=
  addBox_of_full m p s c1 c2 a md h

/-- Concrete instantiation: a pool with ceiling 0 rejects the add and is
left untouched. -/
theorem addBox_at_ceiling_returns_sentinel_witness :
    (mkBoxManager 0).maxBoxes ≤ (mkBoxManager 0).instances.length ∧
    addBox (mkBoxManager 0) sampleVec sampleVec sampleColor none 1 0 =
      (-1, mkBoxManager 0) :=
  ⟨by decide,
    addBox_at_ceiling_returns_sentinel (mkBoxManager 0) sampleVec sampleVec sampleColor
      none 1 0 (by decide)⟩

/-- Claim C7 as stated is false: `clear` resets `idCounter`, so after
`add, clear, add` the id 0 is issued twice. -/
theorem issued_ids_reused_after_clear :
    (runBoxOpsLog 5 [sampleAdd, .clearAll, sampleAdd]).2 = [0, 0] ∧
    ¬ (runBoxOpsLog 5 [sampleAdd, .clearAll, sampleAdd]).2.Pairwise (· < ·) := by
  constructor
  · decide
  · decide

/-- Claim C7 (amended): in every sequence of BoxManager operations that does
not include `clear`, the logical ids issued by `addBox` are strictly
increasing in order of issue, so no id is ever issued twice. -/
theorem issued_ids_strictly_increasing (maxB : ℕ) (ops : List BoxOp)
    (h : ∀ op ∈ ops, op ≠ BoxOp.clearAll) :
    (runBoxOpsLog maxB ops).2.Pairwise (· < ·) := by
  suffices key : ∀ (l : List BoxOp) (acc : BoxManager × List Int),
      (∀ op ∈ l, op ≠ BoxOp.clearAll) →
      (∀ x ∈ acc.2, x < (acc.1.idCounter : Int)) → acc.2.Pairwise (· < ·) →
      (∀ x ∈ (l.foldl boxOpLogStep acc).2,
        x < ((l.foldl boxOpLogStep acc).1.idCounter : Int)) ∧
      (l.foldl boxOpLogStep acc).2.Pairwise (· < ·) by
    exact (key ops (mkBoxManager maxB, []) h (by simp) (by simp)).2
  intro l
  induction l with
  | nil => intro acc _ ha1 ha2; exact ⟨ha1, ha2⟩
  | cons op rest ih =>
    intro acc hops ha1 ha2
    have hstep := boxOpLogStep_inv acc op (hops op (List.mem_cons_self op rest)) ha1 ha2
    exact ih _ (fun o ho => hops o (List.mem_cons_of_mem _ ho)) hstep.1 hstep.2

/-- Concrete instantiation: `add, remove 0, add` without clear issues `[0, 1]`. -/
theorem issued_ids_strictly_increasing_witness :
    (∀ op ∈ [sampleAdd, BoxOp.remove 0, sampleAdd], op ≠ BoxOp.clearAll) ∧
    (runBoxOpsLog 5 [sampleAdd, .remove 0, sampleAdd]).2.Pairwise (· < ·) :=
  ⟨by decide, issued_ids_strictly_increasing 5 [sampleAdd, .remove 0, sampleAdd] (by decide)⟩

/-! ### TextManager glyph pool growth (library/base/TextManager.ts, `grow`) -/

/-- The headroom policy of `TextManager.grow`:
`padding = Math.min(Math.ceil(requiredCapacity * 0.2), 10000)`,
`newCapacity = Math.max(requiredCapacity + padding, requiredCapacity + 50)`,
then `newCapacity = Math.max(newCapacity, this.capacity)` (never shrink).
`Math.ceil(x * 0.2)` is modelled in exact arithmetic as `⌈x / 5⌉ = (x + 4) / 5`;
JS float64 evaluates `15 * 0.2` to slightly above 3 and ceils it to 4 instead
of 3, but for that input both paddings are dominated by the `+ 50` minimum
slack, so every value this development relies on is unaffected. -/
def growCapacity (capacity requiredCapacity : ℕ) : ℕ :=
  max (max (requiredCapacity + min ((requiredCapacity + 4) / 5) 10000)
        (requiredCapacity + 50))
      capacity

/-- The per-instance buffers of the glyph `InstancedMesh`: flat `Float32Array`s
holding 16 matrix entries, 4 `aUvOffset` entries and 3 `aColor` entries per
slot, zero-initialised (`createMesh`). -/
structure GlyphPool where
  capacity : ℕ
  count : ℕ
  matrices : List ℤ
  uvs : List ℤ
  colors : List ℤ
deriving DecidableEq, Repr

/-- `TextManager.createMesh`: fresh zero-filled buffers, `count = 0`. -/
def createMesh (capacity : ℕ) : GlyphPool :=
  ⟨capacity, 0, List.replicate (capacity * 16) 0, List.replicate (capacity * 4) 0,
    List.replicate (capacity * 3) 0⟩

/-- `dst.set(src)` on typed arrays: overwrite the front of `dst` with `src`. -/
def typedArraySet (src dst : List ℤ) : List ℤ :=
  src ++ dst.drop src.length

/-- `TextManager.grow`: allocate buffers at the new capacity and bulk-copy the
first `count` instances' raw matrix/uv/color data (`subarray(0, oldCount * s)`)
into them; `count` is carried over (the copy is skipped when `count = 0`,
which produces the same buffers). -/
def grow (p : GlyphPool) (requiredCapacity : ℕ) : GlyphPool :=
  if p.count = 0 then createMesh (growCapacity p.capacity requiredCapacity)
  else
    { capacity := growCapacity p.capacity requiredCapacity
      count := p.count
      matrices := typedArraySet (p.matrices.take (p.count * 16))
        (createMesh (growCapacity p.capacity requiredCapacity)).matrices
      uvs := typedArraySet (p.uvs.take (p.count * 4))
        (createMesh (growCapacity p.capacity requiredCapacity)).uvs
      colors := typedArraySet (p.colors.take (p.count * 3))
        (createMesh (growCapacity p.capacity requiredCapacity)).colors }

/-- The transform matrix stored for instance `i` (16 floats at offset `16 i`). -/
def readMatrix (p : GlyphPool) (i : ℕ) : List ℤ :=
  (p.matrices.drop (i * 16)).take 16

/-- The `aUvOffset` attribute stored for instance `i`. -/
def readUv (p : GlyphPool) (i : ℕ) : List ℤ :=
  (p.uvs.drop (i * 4)).take 4

/-- The `aColor` attribute stored for instance `i`. -/
def readColor (p : GlyphPool) (i : ℕ) : List ℤ :=
  (p.colors.drop (i * 3)).take 3

theorem take_drop_typedArraySet (l rest : List ℤ) (k n w : ℕ)
    (h1 : n + w ≤ k) (h2 : k ≤ l.length) :
    ((typedArraySet (l.take k) rest).drop n).take w = (l.drop n).take w := by
  unfold typedArraySet
  have hk : (l.take k).length = k := by
    simp [List.length_take]
    omega
  rw [List.drop_append_of_le_length (by omega)]
  rw [List.take_append_of_le_length (by simp [hk]; omega)]
  rw [List.drop_take, List.take_take]
  congr 1
  omega

/-- Claim C3: growth preserves every live instance's transform matrix and
per-instance attributes (UV offset, color) in the same slot, and keeps the
live count, so no live record is dropped or reordered. -/
theorem grow_preserves_live_instances (p : GlyphPool) (requiredCapacity i : ℕ)
    (hm : p.matrices.length = p.capacity * 16)
    (hu : p.uvs.length = p.capacity * 4)
    (hc : p.colors.length = p.capacity * 3)
    (hcount : p.count ≤ p.capacity)
    (hi : i < p.count) :
    (grow p requiredCapacity).count = p.count ∧
    readMatrix (grow p requiredCapacity) i = readMatrix p i ∧
    readUv (grow p requiredCapacity) i = readUv p i ∧
    readColor (grow p requiredCapacity) i = readColor p i := by
  have hcz : ¬ p.count = 0 := by omega
  unfold grow
  rw [if_neg hcz]
  refine ⟨rfl, ?_, ?_, ?_⟩
  · exact take_drop_typedArraySet p.matrices _ (p.count * 16) (i * 16) 16
      (by omega) (by omega)
  · exact take_drop_typedArraySet p.uvs _ (p.count * 4) (i * 4) 4
      (by omega) (by omega)
  · exact take_drop_typedArraySet p.colors _ (p.count * 3) (i * 3) 3
      (by omega) (by omega)

/-- A well-formed one-slot pool holding one live instance. -/
def samplePool : GlyphPool :=
  ⟨1, 1, List.replicate 16 1, List.replicate 4 2, List.replicate 3 3⟩

/-- Concrete instantiation: growing the one-slot pool to hold 2 preserves
instance 0's matrix, uv and color data. -/
theorem grow_preserves_live_instances_witness :
    (samplePool.matrices.length = samplePool.capacity * 16 ∧
      samplePool.uvs.length = samplePool.capacity * 4 ∧
      samplePool.colors.length = samplePool.capacity * 3 ∧
      samplePool.count ≤ samplePool.capacity ∧ 0 < samplePool.count) ∧
    ((grow samplePool 2).count = samplePool.count ∧
      readMatrix (grow samplePool 2) 0 = readMatrix samplePool 0 ∧
      readUv (grow samplePool 2) 0 = readUv samplePool 0 ∧
      readColor (grow samplePool 2) 0 = readColor samplePool 0) :=
  ⟨by decide,
    grow_preserves_live_instances samplePool 2 0 (by decide) (by decide) (by decide)
      (by decide) (by decide)⟩

/-- Claim C5 as stated is false on the code: the minimum absolute slack in
`grow` is 50, not 500, so growing a capacity-10 pool to hold 15 yields
capacity 65, which is not ≥ 515. -/
theorem grow_capacity_scenario_counterexample :
    growCapacity 10 15 = 65 ∧ ¬ 515 ≤ growCapacity 10 15 := by
  exact ⟨by decide, by decide⟩

/-- Claim C5 (amended): growing a capacity-10 pool to hold 15 records under
the code's policy (padding `min(ceil(required*0.2), 10000)`, minimum absolute
slack 50, never shrinking) yields capacity 65: at least `required + 50 = 65`
and not less than 15. -/
theorem grow_capacity_scenario :
    growCapacity 10 15 = 65 ∧ 15 ≤ growCapacity 10 15 ∧ 65 ≤ growCapacity 10 15 := by
  exact ⟨by decide, by decide, by decide⟩

/-! ### TextArea layout engine (src/library/noteBoxes/TextArea.ts) -/

/-- One entry of the msdf font's `chars` table (the fields the engine reads).
`atlasX`/`atlasY` model the descriptor's `x`/`y`. -/
structure FontChar where
  glyphChar : Char
  width : ℤ
  height : ℤ
  xoffset : ℤ
  yoffset : ℤ
  xadvance : ℤ
  atlasX : ℤ
  atlasY : ℤ
deriving DecidableEq, Repr

/-- The parts of `FontData` the layout engine reads. -/
structure FontData where
  lineHeight : ℤ
  scaleW : ℤ
  scaleH : ℤ
  chars : List FontChar
deriving DecidableEq, Repr

/-- `fontData.chars.forEach(c => charMap.set(c.char, c))`. -/
def buildCharMap (chars : List FontChar) : List (Char × FontChar) :=
  chars.foldl (fun m c => alistSet m c.glyphChar c) []

/-- `TextStyle { start, end, color? }`; `stop` models the `end` field. -/
structure TextStyle where
  start : ℕ
  stop : ℕ
  color : Option Color3
deriving DecidableEq, Repr

/-- `GlyphLayout`: one placed glyph of the layout output. -/
structure GlyphLayout where
  char : FontChar
  x : ℤ
  y : ℤ
  color : Color3
deriving DecidableEq, Repr

/-- One cached entry of `visualMap` (`{ index, x, y }`). -/
structure VisualEntry where
  index : ℕ
  x : ℤ
  y : ℤ
deriving DecidableEq, Repr

/-- The `TextArea` object state (text as a list of characters). -/
structure TextArea where
  width : ℤ
  height : ℤ
  text : List Char
  wordWrap : Bool
  lineSpacing : ℤ
  styles : List TextStyle
  caretIndex : ℕ
  lastCaretPos : ℤ × ℤ
  fontData : FontData
  charMap : List (Char × FontChar)
  visualMap : List VisualEntry
deriving DecidableEq, Repr

/-- The `TextArea` constructor with its field defaults. -/
def mkTextArea (fontData : FontData) : TextArea :=
  { width := 800, height := 600, text := [], wordWrap := true, lineSpacing := 1,
    styles := [], caretIndex := 0, lastCaretPos := (0, 0), fontData := fontData,
    charMap := buildCharMap fontData.chars, visualMap := [] }

/-- `text.split('\n')` (keeps empty segments, one extra segment per newline). -/
def splitLines (l : List Char) : List (List Char) :=
  match l with
  | [] => [[]]
  | c :: rest =>
    if c = '\n' then [] :: splitLines rest
    else
      match splitLines rest with
      | [] => [[c]]
      | line :: more => (c :: line) :: more

/-- The JS `\s` whitespace class, restricted to the characters that can occur
inside a line (no `'\n'` survives the line split). -/
def isWs (c : Char) : Bool :=
  c.isWhitespace

/-- One step of maximal-run chunking by whitespace class. -/
def runStep (c : Char) (acc : List (List Char)) : List (List Char) :=
  match acc with
  | [] => [[c]]
  | [] :: rest => [[c]] ++ rest
  | (d :: ds) :: rest =>
    if isWs c = isWs d then (c :: d :: ds) :: rest
    else [c] :: (d :: ds) :: rest

/-- Maximal runs of same whitespace class, in order. -/
def wsRuns (l : List Char) : List (List Char) :=
  l.foldr runStep []

/-- `line.split(/(\s+)/)`: the whitespace runs are captured, so the result
alternates non-whitespace and whitespace tokens, with an empty token before a
leading whitespace run and after a trailing one (JS split semantics). -/
def splitWsCapture (l : List Char) : List (List Char) :=
  match wsRuns l with
  | [] => [[]]
  | r :: rs =>
    (if isWs (r.headD 'a') then [[]] else []) ++ (r :: rs) ++
      (if isWs (((r :: rs).getLast (by simp)).headD 'a') then [[]] else [])

/-- The advance the cursor gains from a character: `xadvance` when mapped,
nothing otherwise. -/
def advOf (cm : List (Char × FontChar)) (c : Char) : ℤ :=
  match alistGet cm c with
  | some d => d.xadvance
  | none => 0

/-- Total advance of a list of characters. -/
def advSum (cm : List (Char × FontChar)) (l : List Char) : ℤ :=
  (l.map (advOf cm)).sum

/-- The word-width measurement loop of `computeLayout` (unmapped characters
contribute nothing). -/
def wordWidth (cm : List (Char × FontChar)) (word : List Char) : ℤ :=
  word.foldl
    (fun acc c =>
      match alistGet cm c with
      | some d => acc + d.xadvance
      | none => acc)
    0

/-- Style resolution: start from white, scan ranges in declaration order and
overwrite when the range covers the index and sets a color. -/
def resolveColor (styles : List TextStyle) (idx : ℕ) : Color3 :=
  styles.foldl
    (fun col st =>
      if st.start ≤ idx ∧ idx < st.stop then
        match st.color with
        | some c => c
        | none => col
      else col)
    ⟨1, 1, 1⟩

/-- The mutable locals of one `computeLayout` run. -/
structure LayoutState where
  glyphs : List GlyphLayout
  visualMap : List VisualEntry
  lastCaretPos : ℤ × ℤ
  cursorX : ℤ
  cursorY : ℤ
deriving DecidableEq, Repr

/-- The body of the per-character loop: character-level wrap, visual-map entry
(recorded for every index), caret capture, then emission (skipped when the
character is unmapped or the line is vertically clipped) and advance. -/
def processChar (ta : TextArea) (lh : ℤ) (c : Char) (idx : ℕ) (st : LayoutState) :
    LayoutState :=
  let st1 :=
    match alistGet ta.charMap c with
    | some d =>
      if ta.wordWrap ∧ st.cursorX + d.xadvance > ta.width ∧ st.cursorX > 0 then
        { st with cursorX := 0, cursorY := st.cursorY - lh }
      else st
    | none => st
  let st2 :=
    { st1 with visualMap := st1.visualMap ++ [(⟨idx, st1.cursorX, st1.cursorY⟩ : VisualEntry)] }
  let st3 :=
    if idx = ta.caretIndex then { st2 with lastCaretPos := (st2.cursorX, st2.cursorY) }
    else st2
  match alistGet ta.charMap c with
  | some d =>
    let st4 :=
      if |st3.cursorY| ≤ ta.height then
        { st3 with
            glyphs := st3.glyphs ++ [⟨d, st3.cursorX, st3.cursorY, resolveColor ta.styles idx⟩] }
      else st3
    { st4 with cursorX := st4.cursorX + d.xadvance }
  | none => st3

/-- The per-character loop over one word. -/
def layoutChars (ta : TextArea) (lh : ℤ) (word : List Char) (idx : ℕ) (st : LayoutState) :
    LayoutState :=
  match word with
  | [] => st
  | c :: rest => layoutChars ta lh rest (idx + 1) (processChar ta lh c idx st)

/-- The per-word loop: word-wrap check on the measured word width, then the
character loop; the string pointer advances by the word length. -/
def layoutWords (ta : TextArea) (lh : ℤ) (words : List (List Char)) (sp : ℕ)
    (st : LayoutState) : ℕ × LayoutState :=
  match words with
  | [] => (sp, st)
  | w :: rest =>
    layoutWords ta lh rest (sp + w.length)
      (layoutChars ta lh w sp
        (if ta.wordWrap ∧ st.cursorX + wordWidth ta.charMap w > ta.width ∧ st.cursorX > 0 then
          { st with cursorX := 0, cursorY := st.cursorY - lh }
        else st))

/-- One line: split into words when wrapping, run the word loop from
`cursorX = 0`, then the end-of-line caret check, the entry for the newline
index itself, and the line advance. -/
def layoutLine (ta : TextArea) (lh : ℤ) (line : List Char) (sp : ℕ) (st : LayoutState) :
    ℕ × LayoutState :=
  match layoutWords ta lh (if ta.wordWrap then splitWsCapture line else [line]) sp
      { st with cursorX := 0 } with
  | (sp1, st1) =>
    let st2 :=
      if sp1 = ta.caretIndex then { st1 with lastCaretPos := (st1.cursorX, st1.cursorY) }
      else st1
    let st3 :=
      { st2 with visualMap := st2.visualMap ++ [(⟨sp1, st2.cursorX, st2.cursorY⟩ : VisualEntry)] }
    (sp1 + 1, { st3 with cursorX := 0, cursorY := st3.cursorY - lh })

def layoutLines (ta : TextArea) (lh : ℤ) (lines : List (List Char)) (sp : ℕ)
    (st : LayoutState) : ℕ × LayoutState :=
  match lines with
  | [] => (sp, st)
  | line :: rest =>
    match layoutLine ta lh line sp st with
    | (sp1, st1) => layoutLines ta lh rest sp1 st1

/-- `TextArea.computeLayout`: returns the glyph list and the object with its
refreshed `visualMap` and `lastCaretPos` caches (the mutable fields it
writes). -/
def computeLayout (ta : TextArea) : List GlyphLayout × TextArea :=
  match layoutLines ta (ta.fontData.lineHeight * ta.lineSpacing) (splitLines ta.text) 0
      ⟨[], [], (0, 0), 0, 0⟩ with
  | (sp, st) =>
    let st1 := if sp = ta.caretIndex then { st with lastCaretPos := (0, st.cursorY) } else st
    let st2 :=
      { st1 with visualMap := st1.visualMap ++ [(⟨sp, 0, st1.cursorY⟩ : VisualEntry)] }
    (st2.glyphs, { ta with visualMap := st2.visualMap, lastCaretPos := st2.lastCaretPos })

/-- One iteration of the best-entry scan of `getIndexAtPos` (`none` plays the
role of the `Infinity` initial distance). -/
def bestStep (x y : ℤ) (acc : Option (ℕ × ℤ)) (e : VisualEntry) : Option (ℕ × ℤ) :=
  match acc with
  | none => some (e.index, (x - e.x) ^ 2 + ((y - e.y) * 2) ^ 2)
  | some (bi, bd) =>
    if (x - e.x) ^ 2 + ((y - e.y) * 2) ^ 2 < bd then
      some (e.index, (x - e.x) ^ 2 + ((y - e.y) * 2) ^ 2)
    else some (bi, bd)

/-- `TextArea.getIndexAtPos`: nearest cached entry under the y-weighted
squared distance (weight 2), clamped to the text length. -/
def getIndexAtPos (ta : TextArea) (x y : ℤ) : ℕ :=
  match ta.visualMap with
  | [] => 0
  | _ =>
    match ta.visualMap.foldl (bestStep x y) none with
    | some (bi, _) => min ta.text.length bi
    | none => 0

/-! #### Splitting lemmas -/

theorem flatten_runStep (c : Char) (acc : List (List Char)) :
    (runStep c acc).flatten = c :: acc.flatten := by
  match acc with
  | [] => rfl
  | [] :: rest => simp [runStep]
  | (d :: ds) :: rest =>
    by_cases h : isWs c = isWs d <;> simp [runStep, h]

theorem flatten_wsRuns (l : List Char) : (wsRuns l).flatten = l := by
  induction l with
  | nil => rfl
  | cons c rest ih =>
    show (runStep c (wsRuns rest)).flatten = c :: rest
    rw [flatten_runStep, ih]

theorem flatten_splitWsCapture (l : List Char) : (splitWsCapture l).flatten = l := by
  unfold splitWsCapture
  cases h : wsRuns l with
  | nil =>
    have hl : l = [] := by
      have := flatten_wsRuns l
      rw [h] at this
      simpa using this.symm
    simp [hl]
  | cons r rs =>
    have hj : (r :: rs).flatten = l := by
      rw [← h]
      exact flatten_wsRuns l
    dsimp only
    split <;> split <;> simp_all

theorem mem_of_mem_splitWsCapture {l : List Char} {w : List Char} {c : Char}
    (hw : w ∈ splitWsCapture l) (hc : c ∈ w) : c ∈ l := by
  have : c ∈ (splitWsCapture l).flatten := List.mem_flatten_of_mem hw hc
  rwa [flatten_splitWsCapture] at this

theorem splitLines_ne_nil (l : List Char) : splitLines l ≠ [] := by
  cases l with
  | nil => simp [splitLines]
  | cons c rest =>
    unfold splitLines
    by_cases h : c = '\n'
    · simp [h]
    · rw [if_neg h]
      cases splitLines rest <;> simp

theorem splitLines_total (l : List Char) :
    ((splitLines l).map (fun a => a.length + 1)).sum = l.length + 1 := by
  induction l with
  | nil => rfl
  | cons c rest ih =>
    unfold splitLines
    by_cases h : c = '\n'
    · rw [if_pos h]
      simp only [List.map_cons, List.sum_cons, List.length_nil, List.length_cons]
      simp at ih ⊢
      omega
    · rw [if_neg h]
      cases hs : splitLines rest with
      | nil => exact absurd hs (splitLines_ne_nil rest)
      | cons line more =>
        rw [hs] at ih
        simp at ih ⊢
        omega

theorem mem_of_mem_splitLines {l line : List Char} {c : Char}
    (hline : line ∈ splitLines l) (hc : c ∈ line) : c ∈ l := by
  induction l generalizing line with
  | nil =>
    simp [splitLines] at hline
    subst hline
    cases hc
  | cons a rest ih =>
    unfold splitLines at hline
    by_cases h : a = '\n'
    · rw [if_pos h] at hline
      rcases List.mem_cons.mp hline with hline | hline
      · subst hline
        cases hc
      · exact List.mem_cons_of_mem a (ih hline hc)
    · rw [if_neg h] at hline
      cases hs : splitLines rest with
      | nil => exact absurd hs (splitLines_ne_nil rest)
      | cons l0 more =>
        rw [hs] at hline
        rcases List.mem_cons.mp hline with hline | hline
        · subst hline
          rcases List.mem_cons.mp hc with hc | hc
          · subst hc
            exact List.mem_cons_self c rest
          · refine List.mem_cons_of_mem a (ih ?_ hc)
            rw [hs]
            exact List.mem_cons_self l0 more
        · refine List.mem_cons_of_mem a (ih ?_ hc)
          rw [hs]
          exact List.mem_cons_of_mem l0 hline

theorem splitLines_of_no_newline {l : List Char} (h : '\n' ∉ l) :
    splitLines l = [l] := by
  induction l with
  | nil => rfl
  | cons c rest ih =>
    have hc : ¬ c = '\n' := fun hc => h (hc ▸ List.mem_cons_self c rest)
    have hrest : '\n' ∉ rest := fun hr => h (List.mem_cons_of_mem c hr)
    unfold splitLines
    rw [if_neg hc, ih hrest]

/-! #### Position-index completeness -/

theorem processChar_visualMap_map (ta : TextArea) (lh : ℤ) (c : Char) (idx : ℕ)
    (st : LayoutState) :
    ((processChar ta lh c idx st).visualMap).map (fun e => e.index) =
      st.visualMap.map (fun e => e.index) ++ [idx] := by
  unfold processChar
  cases hcd : alistGet ta.charMap c <;> dsimp only <;> (repeat' split) <;> simp

theorem layoutChars_visualMap_map (ta : TextArea) (lh : ℤ) (word : List Char) (idx : ℕ)
    (st : LayoutState) :
    ((layoutChars ta lh word idx st).visualMap).map (fun e => e.index) =
      st.visualMap.map (fun e => e.index) ++ List.range' idx word.length := by
  induction word generalizing idx st with
  | nil => simp [layoutChars]
  | cons c rest ih =>
    show ((layoutChars ta lh rest (idx + 1) (processChar ta lh c idx st)).visualMap).map _ = _
    rw [ih, processChar_visualMap_map, List.append_assoc]
    simp [List.range'_succ]

theorem layoutWords_spec (ta : TextArea) (lh : ℤ) (words : List (List Char)) (sp : ℕ)
    (st : LayoutState) :
    (layoutWords ta lh words sp st).1 = sp + (words.map List.length).sum ∧
    (((layoutWords ta lh words sp st).2).visualMap).map (fun e => e.index) =
      st.visualMap.map (fun e => e.index) ++ List.range' sp (words.map List.length).sum := by
  induction words generalizing sp st with
  | nil => simp [layoutWords]
  | cons w rest ih =>
    have hst1 : ∀ s : LayoutState,
        ((if ta.wordWrap ∧ s.cursorX + wordWidth ta.charMap w > ta.width ∧ s.cursorX > 0 then
          { s with cursorX := 0, cursorY := s.cursorY - lh } else s)).visualMap = s.visualMap := by
      intro s
      split <;> rfl
    show (layoutWords ta lh rest (sp + w.length) _).1 = _ ∧
      ((layoutWords ta lh rest (sp + w.length) _).2.visualMap).map _ = _
    obtain ⟨ih1, ih2⟩ := ih (sp + w.length) (layoutChars ta lh w sp
      (if ta.wordWrap ∧ st.cursorX + wordWidth ta.charMap w > ta.width ∧ st.cursorX > 0 then
        { st with cursorX := 0, cursorY := st.cursorY - lh } else st))
    constructor
    · rw [ih1]
      simp
      omega
    · rw [ih2, layoutChars_visualMap_map]
      have hvm : ((if ta.wordWrap ∧ st.cursorX + wordWidth ta.charMap w > ta.width ∧
          st.cursorX > 0 then
            { st with cursorX := 0, cursorY := st.cursorY - lh } else st)).visualMap =
          st.visualMap := hst1 st
      rw [hvm, List.append_assoc, List.range'_append_1]
      simp
      omega

theorem layoutLine_spec (ta : TextArea) (lh : ℤ) (line : List Char) (sp : ℕ)
    (st : LayoutState) :
    (layoutLine ta lh line sp st).1 = sp + line.length + 1 ∧
    (((layoutLine ta lh line sp st).2).visualMap).map (fun e => e.index) =
      st.visualMap.map (fun e => e.index) ++ List.range' sp (line.length + 1) := by
  have hwords : ((if ta.wordWrap then splitWsCapture line else [line]).map List.length).sum =
      line.length := by
    split
    · have hlen := congrArg List.length (flatten_splitWsCapture line)
      rw [List.length_flatten] at hlen
      exact hlen
    · simp
  obtain ⟨h1, h2⟩ := layoutWords_spec ta lh
    (if ta.wordWrap then splitWsCapture line else [line]) sp { st with cursorX := 0 }
  unfold layoutLine
  rcases hp : layoutWords ta lh (if ta.wordWrap then splitWsCapture line else [line]) sp
      { st with cursorX := 0 } with ⟨sp1, st1⟩
  rw [hp] at h1 h2
  rw [hwords] at h1 h2
  dsimp only at h1 h2 ⊢
  have hcaret : ∀ s : LayoutState,
      ((if sp1 = ta.caretIndex then { s with lastCaretPos := (s.cursorX, s.cursorY) }
        else s)).visualMap = s.visualMap := by
    intro s
    split <;> rfl
  constructor
  · omega
  · rw [hcaret st1]
    simp only [List.map_append, h2, List.map_cons, List.map_nil]
    rw [List.append_assoc]
    have : sp1 = sp + line.length := h1
    rw [this]
    rw [← List.range'_1_concat]

theorem layoutLines_spec (ta : TextArea) (lh : ℤ) (lines : List (List Char)) (sp : ℕ)
    (st : LayoutState) :
    (layoutLines ta lh lines sp st).1 =
      sp + (lines.map (fun a => a.length + 1)).sum ∧
    (((layoutLines ta lh lines sp st).2).visualMap).map (fun e => e.index) =
      st.visualMap.map (fun e => e.index) ++
        List.range' sp (lines.map (fun a => a.length + 1)).sum := by
  induction lines generalizing sp st with
  | nil => simp [layoutLines]
  | cons line rest ih =>
    obtain ⟨hl1, hl2⟩ := layoutLine_spec ta lh line sp st
    unfold layoutLines
    rcases hp : layoutLine ta lh line sp st with ⟨sp1, st1⟩
    rw [hp] at hl1 hl2
    dsimp only at hl1 hl2 ⊢
    obtain ⟨ih1, ih2⟩ := ih sp1 st1
    constructor
    · rw [ih1, hl1]
      simp
      omega
    · rw [ih2, hl2, List.append_assoc]
      have hsq : sp1 = sp + (line.length + 1) := by omega
      rw [hsq, List.range'_append_1]
      simp
      omega

theorem computeLayout_visualMap_map (ta : TextArea) :
    ((computeLayout ta).2.visualMap).map (fun e => e.index) =
      List.range (ta.text.length + 2) := by
  obtain ⟨h1, h2⟩ := layoutLines_spec ta (ta.fontData.lineHeight * ta.lineSpacing)
    (splitLines ta.text) 0 ⟨[], [], (0, 0), 0, 0⟩
  unfold computeLayout
  rcases hp : layoutLines ta (ta.fontData.lineHeight * ta.lineSpacing)
      (splitLines ta.text) 0 ⟨[], [], (0, 0), 0, 0⟩ with ⟨sp, st⟩
  rw [hp] at h1 h2
  rw [splitLines_total] at h1 h2
  dsimp only at h1 h2 ⊢
  have hcaret : ∀ s : LayoutState,
      ((if sp = ta.caretIndex then { s with lastCaretPos := (0, s.cursorY) }
        else s)).visualMap = s.visualMap := by
    intro s
    split <;> rfl
  rw [hcaret st, List.map_append, h2]
  simp only [List.map_cons, List.map_nil, List.nil_append]
  rw [h1, ← List.range'_1_concat, List.range_eq_range']

/-- Claim C8: for every text, box width (including `boxWidth ≤ 0` with word
wrap on) and configuration, `computeLayout` terminates — it is a total
structurally-recursive function here — and makes forward progress: the
recorded position index covers every character index exactly once
(`[0, …, text.length + 1]`), so no input loops forever. -/
theorem layout_terminates_all_inputs (ta : TextArea) :
    ((computeLayout ta).2.visualMap).map (fun e => e.index) =
      List.range (ta.text.length + 2) :=
  computeLayout_visualMap_map ta

/-- Claim C4 as stated is false on the code: `computeLayout` records one
entry per character, one entry per line end (including the last line) and a
final virtual entry, so the empty text yields 2 entries, not `0 + 1`. -/
theorem visualMap_length_not_plus_one :
    ((computeLayout (mkTextArea ⟨20, 100, 100, [⟨'a', 8, 10, 0, 0, 10, 0, 0⟩]⟩)).2.visualMap).length = 2 ∧
    ¬ ((computeLayout (mkTextArea ⟨20, 100, 100, [⟨'a', 8, 10, 0, 0, 10, 0, 0⟩]⟩)).2.visualMap).length =
      (mkTextArea ⟨20, 100, 100, [⟨'a', 8, 10, 0, 0, 10, 0, 0⟩]⟩).text.length + 1 := by
  exact ⟨by decide, by decide⟩

/-- Claim C4 (amended): after `computeLayout` the position index has exactly
`text.length + 2` entries: one per character index (recorded before glyph
emission is tested), one per line end — including the end of the last line —
and one final virtual entry. -/
theorem visualMap_length_plus_two (ta : TextArea) :
    ((computeLayout ta).2.visualMap).length = ta.text.length + 2 := by
  have h := computeLayout_visualMap_map ta
  have hlen := congrArg List.length h
  rw [List.length_map, List.length_range] at hlen
  exact hlen

/-! #### Unwrapped single-line characterization -/

/-- `advSum` over a cons. -/
theorem advSum_cons (cm : List (Char × FontChar)) (c : Char) (l : List Char) :
    advSum cm (c :: l) = advOf cm c + advSum cm l := by
  simp [advSum]

/-- The visual entries produced for `word` starting at string index `idx`
with the cursor at `(x0, y0)` when no wrapping can occur. -/
def xposEntries (cm : List (Char × FontChar)) (word : List Char) (idx : ℕ) (x0 y0 : ℤ) :
    List VisualEntry :=
  (List.range word.length).map (fun j => ⟨idx + j, x0 + advSum cm (word.take j), y0⟩)

theorem xposEntries_cons (cm : List (Char × FontChar)) (c : Char) (rest : List Char)
    (idx : ℕ) (x0 y0 : ℤ) :
    xposEntries cm (c :: rest) idx x0 y0 =
      ⟨idx, x0, y0⟩ :: xposEntries cm rest (idx + 1) (x0 + advOf cm c) y0 := by
  unfold xposEntries
  rw [List.length_cons, List.range_succ_eq_map, List.map_cons, List.map_map]
  refine congrArg₂ List.cons ?_ ?_
  · simp [advSum]
  · refine List.map_congr_left ?_
    intro j hj
    simp only [Function.comp_apply, List.take_succ_cons, advSum_cons, VisualEntry.mk.injEq]
    refine ⟨by omega, by omega, trivial⟩

theorem processChar_no_wrap (ta : TextArea) (lh : ℤ) (hw : ta.wordWrap = false)
    (c : Char) (idx : ℕ) (st : LayoutState) :
    (processChar ta lh c idx st).cursorX = st.cursorX + advOf ta.charMap c ∧
    (processChar ta lh c idx st).cursorY = st.cursorY ∧
    (processChar ta lh c idx st).visualMap =
      st.visualMap ++ [⟨idx, st.cursorX, st.cursorY⟩] ∧
    (processChar ta lh c idx st).lastCaretPos =
      (if idx = ta.caretIndex then (st.cursorX, st.cursorY) else st.lastCaretPos) := by
  unfold processChar advOf
  cases hcd : alistGet ta.charMap c with
  | none =>
    dsimp only
    refine ⟨?_, ?_, ?_, ?_⟩ <;> (split <;> simp)
  | some d =>
    dsimp only
    have hcond : ¬ (ta.wordWrap = true ∧ st.cursorX + d.xadvance > ta.width ∧
        st.cursorX > 0) := by
      rintro ⟨h1, -⟩
      rw [hw] at h1
      cases h1
    rw [if_neg hcond]
    refine ⟨?_, ?_, ?_, ?_⟩ <;> (repeat' split) <;> simp_all

theorem layoutChars_no_wrap (ta : TextArea) (lh : ℤ) (hw : ta.wordWrap = false)
    (word : List Char) (idx : ℕ) (st : LayoutState) :
    (layoutChars ta lh word idx st).cursorX = st.cursorX + advSum ta.charMap word ∧
    (layoutChars ta lh word idx st).cursorY = st.cursorY ∧
    (layoutChars ta lh word idx st).visualMap =
      st.visualMap ++ xposEntries ta.charMap word idx st.cursorX st.cursorY ∧
    (layoutChars ta lh word idx st).lastCaretPos =
      (if idx ≤ ta.caretIndex ∧ ta.caretIndex < idx + word.length then
        (st.cursorX + advSum ta.charMap (word.take (ta.caretIndex - idx)), st.cursorY)
      else st.lastCaretPos) := by
  induction word generalizing idx st with
  | nil =>
    refine ⟨by simp [layoutChars, advSum], by simp [layoutChars],
      by simp [layoutChars, xposEntries], ?_⟩
    rw [if_neg (by simp only [List.length_nil]; omega)]
    simp [layoutChars]
  | cons c rest ih =>
    obtain ⟨hx, hy, hvm, hcp⟩ := processChar_no_wrap ta lh hw c idx st
    obtain ⟨ix, iy, ivm, icp⟩ := ih (idx + 1) (processChar ta lh c idx st)
    refine ⟨?_, ?_, ?_, ?_⟩
    · show (layoutChars ta lh rest (idx + 1) (processChar ta lh c idx st)).cursorX = _
      rw [ix, hx, advSum_cons]
      omega
    · show (layoutChars ta lh rest (idx + 1) (processChar ta lh c idx st)).cursorY = _
      rw [iy, hy]
    · show (layoutChars ta lh rest (idx + 1) (processChar ta lh c idx st)).visualMap = _
      rw [ivm, hvm, hx, hy, List.append_assoc, xposEntries_cons]
      rfl
    · show (layoutChars ta lh rest (idx + 1) (processChar ta lh c idx st)).lastCaretPos = _
      rw [icp, hx, hy, hcp]
      by_cases h1 : idx = ta.caretIndex
      · rw [if_neg (by omega), if_pos h1, if_pos (by simp only [List.length_cons]; omega)]
        have h0 : ta.caretIndex - idx = 0 := by omega
        rw [h0, List.take_zero]
        simp [advSum]
      · by_cases h2 : idx + 1 ≤ ta.caretIndex ∧ ta.caretIndex < idx + 1 + rest.length
        · rw [if_pos h2, if_pos (by simp only [List.length_cons]; omega)]
          have hsub : ta.caretIndex - idx = (ta.caretIndex - (idx + 1)) + 1 := by omega
          rw [hsub, List.take_succ_cons, advSum_cons]
          refine congrArg₂ Prod.mk ?_ rfl
          omega
        · rw [if_neg h2, if_neg h1, if_neg (by simp only [List.length_cons]; omega)]

theorem layoutWords_single (ta : TextArea) (lh : ℤ) (hw : ta.wordWrap = false)
    (w : List Char) (sp : ℕ) (st : LayoutState) :
    layoutWords ta lh [w] sp st = (sp + w.length, layoutChars ta lh w sp st) := by
  show layoutWords ta lh [] (sp + w.length)
      (layoutChars ta lh w sp
        (if ta.wordWrap ∧ st.cursorX + wordWidth ta.charMap w > ta.width ∧ st.cursorX > 0 then
          { st with cursorX := 0, cursorY := st.cursorY - lh } else st)) = _
  rw [if_neg (by rintro ⟨h1, -⟩; rw [hw] at h1; cases h1)]
  rfl

theorem layoutLines_single (ta : TextArea) (lh : ℤ) (line : List Char) (sp : ℕ)
    (st : LayoutState) :
    layoutLines ta lh [line] sp st = layoutLine ta lh line sp st := by
  unfold layoutLines
  rcases hp : layoutLine ta lh line sp st with ⟨sp1, st1⟩
  rfl

theorem computeLayout_text (ta : TextArea) : (computeLayout ta).2.text = ta.text := by
  unfold computeLayout
  rcases hp : layoutLines ta (ta.fontData.lineHeight * ta.lineSpacing) (splitLines ta.text) 0
      ⟨[], [], (0, 0), 0, 0⟩ with ⟨sp, st⟩
  dsimp only

/-- Full characterization of `computeLayout` on unwrapped single-line text
with the caret inside the text: the visual map lists the cumulative advances,
then the end-of-line entry, then the virtual final entry one line down; the
caret position is the cumulative advance before the caret index. -/
theorem computeLayout_unwrapped (ta : TextArea)
    (hw : ta.wordWrap = false) (hnl : '\n' ∉ ta.text)
    (hci : ta.caretIndex < ta.text.length) :
    (computeLayout ta).2.visualMap =
      xposEntries ta.charMap ta.text 0 0 0 ++
        [⟨ta.text.length, advSum ta.charMap ta.text, 0⟩,
         ⟨ta.text.length + 1, 0, 0 - ta.fontData.lineHeight * ta.lineSpacing⟩] ∧
    (computeLayout ta).2.lastCaretPos =
      (advSum ta.charMap (ta.text.take ta.caretIndex), 0) := by
  obtain ⟨hx, hy, hvm, hcp⟩ := layoutChars_no_wrap ta
    (ta.fontData.lineHeight * ta.lineSpacing) hw ta.text 0 ⟨[], [], (0, 0), 0, 0⟩
  dsimp only at hx hy hvm hcp
  unfold computeLayout
  rw [splitLines_of_no_newline hnl,
    layoutLines_single ta (ta.fontData.lineHeight * ta.lineSpacing) ta.text 0 _]
  unfold layoutLine
  have hwords : (if ta.wordWrap then splitWsCapture ta.text else [ta.text]) = [ta.text] := by
    rw [hw]
    rfl
  rw [hwords, layoutWords_single ta (ta.fontData.lineHeight * ta.lineSpacing) hw ta.text 0 _]
  dsimp only
  rw [if_neg (by omega), if_neg (by omega)]
  rw [hvm, hx, hy, hcp, if_pos (by omega)]
  dsimp only
  constructor
  · simp
  · simp

/-! #### Nearest-entry scan -/

/-- The y-weighted squared distance used by `getIndexAtPos`. -/
def distSq (x y : ℤ) (e : VisualEntry) : ℤ :=
  (x - e.x) ^ 2 + ((y - e.y) * 2) ^ 2

theorem bestStep_none (x y : ℤ) (e : VisualEntry) :
    bestStep x y none e = some (e.index, distSq x y e) := rfl

theorem bestStep_some (x y : ℤ) (bi : ℕ) (bd : ℤ) (e : VisualEntry) :
    bestStep x y (some (bi, bd)) e =
      if distSq x y e < bd then some (e.index, distSq x y e) else some (bi, bd) := rfl

theorem distSq_nonneg (x y : ℤ) (e : VisualEntry) : 0 ≤ distSq x y e :=
  add_nonneg (sq_nonneg _) (sq_nonneg _)

theorem foldl_bestStep_pos (x y : ℤ) (l : List VisualEntry)
    (hl : ∀ e ∈ l, 0 < distSq x y e) :
    ∀ bi bd, 0 < bd →
      ∃ bi' bd', l.foldl (bestStep x y) (some (bi, bd)) = some (bi', bd') ∧ 0 < bd' := by
  induction l with
  | nil =>
    intro bi bd h
    exact ⟨bi, bd, rfl, h⟩
  | cons e rest ih =>
    intro bi bd h
    rw [List.foldl_cons, bestStep_some]
    have hrest : ∀ e' ∈ rest, 0 < distSq x y e' :=
      fun e' he' => hl e' (List.mem_cons_of_mem e he')
    split
    · exact ih hrest e.index _ (hl e (List.mem_cons_self e rest))
    · exact ih hrest bi bd h

theorem foldl_bestStep_keep_zero (x y : ℤ) (l : List VisualEntry) (t : ℕ) :
    l.foldl (bestStep x y) (some (t, 0)) = some (t, 0) := by
  induction l with
  | nil => rfl
  | cons e rest ih =>
    rw [List.foldl_cons, bestStep_some,
      if_neg (by have := distSq_nonneg x y e; omega)]
    exact ih

theorem foldl_bestStep_unique (x y : ℤ) (pre post : List VisualEntry) (e : VisualEntry)
    (hpre : ∀ e' ∈ pre, 0 < distSq x y e')
    (he : distSq x y e = 0) :
    (pre ++ e :: post).foldl (bestStep x y) none = some (e.index, 0) := by
  rw [List.foldl_append]
  cases pre with
  | nil =>
    rw [List.foldl_nil, List.foldl_cons, bestStep_none, he]
    exact foldl_bestStep_keep_zero x y post e.index
  | cons p ps =>
    have h0 : 0 < distSq x y p := hpre p (List.mem_cons_self p ps)
    obtain ⟨bi, bd, hfold, hbd⟩ := foldl_bestStep_pos x y ps
      (fun e' he' => hpre e' (List.mem_cons_of_mem p he')) p.index (distSq x y p) h0
    have hinner : List.foldl (bestStep x y) none (p :: ps) = some (bi, bd) := by
      rw [List.foldl_cons, bestStep_none]
      exact hfold
    rw [hinner, List.foldl_cons, bestStep_some, if_pos (by omega), he]
    exact foldl_bestStep_keep_zero x y post e.index

theorem getIndexAtPos_eq (ta : TextArea) (x y : ℤ) (bi : ℕ) (bd : ℤ)
    (hne : ta.visualMap ≠ [])
    (hfold : ta.visualMap.foldl (bestStep x y) none = some (bi, bd)) :
    getIndexAtPos ta x y = min ta.text.length bi := by
  unfold getIndexAtPos
  cases hv : ta.visualMap with
  | nil => exact absurd hv hne
  | cons hd tl =>
    dsimp only
    rw [hv] at hfold
    rw [hfold]

theorem advSum_take_strict (cm : List (Char × FontChar)) (l : List Char)
    (hpos : ∀ c ∈ l, 0 < advOf cm c) {i j : ℕ} (hij : i < j) (hj : j ≤ l.length) :
    advSum cm (l.take i) < advSum cm (l.take j) := by
  have hdecomp : l.take j = l.take i ++ (l.drop i).take (j - i) := by
    have h := List.take_add l i (j - i)
    rw [show i + (j - i) = j from by omega] at h
    exact h
  rw [hdecomp]
  unfold advSum
  rw [List.map_append, List.sum_append]
  have hseg : 0 < (((l.drop i).take (j - i)).map (advOf cm)).sum := by
    apply List.sum_pos
    · intro x hx
      obtain ⟨c, hc, rfl⟩ := List.mem_map.mp hx
      exact hpos c (List.mem_of_mem_drop (List.mem_of_mem_take hc))
    · apply List.ne_nil_of_length_pos
      simp only [List.length_map, List.length_take, List.length_drop]
      omega
  omega

/-- Splitting the per-character visual entries at index `i`. -/
theorem xposEntries_split (cm : List (Char × FontChar)) (l : List Char) (i : ℕ)
    (hi : i < l.length) :
    xposEntries cm l 0 0 0 =
      (List.range' 0 i).map
          (fun j => (⟨0 + j, 0 + advSum cm (l.take j), 0⟩ : VisualEntry)) ++
        (⟨0 + i, 0 + advSum cm (l.take i), 0⟩ : VisualEntry) ::
          (List.range' (i + 1) (l.length - i - 1)).map
            (fun j => (⟨0 + j, 0 + advSum cm (l.take j), 0⟩ : VisualEntry)) := by
  unfold xposEntries
  rw [List.range_eq_range']
  have h1 : List.range' 0 l.length = List.range' 0 i ++ List.range' i (l.length - i) := by
    have h := List.range'_append_1 0 i (l.length - i)
    simp only [Nat.zero_add] at h
    rw [show l.length - i + i = l.length from by omega] at h
    exact h.symm
  have h2 : List.range' i (l.length - i) = i :: List.range' (i + 1) (l.length - i - 1) := by
    have h := List.range'_succ i (l.length - i - 1) 1
    rw [show l.length - i - 1 + 1 = l.length - i from by omega] at h
    exact h
  rw [h1, h2, List.map_append, List.map_cons]

/-- The failing input for the caret round-trip as originally claimed:
text `"zz"` with a font containing only `'a'`, unwrapped, caret at index 1.
Characters absent from the font do not advance the cursor, so indices 0 and
1 both record position `(0, 0)`. -/
def unmappedTA : TextArea :=
  { mkTextArea ⟨20, 100, 100, [⟨'a', 8, 10, 0, 0, 10, 0, 0⟩]⟩ with
      text := ['z', 'z'], wordWrap := false, caretIndex := 1 }

/-- Claim C9 as stated is false on the code: for the unwrapped single-line
text `"zz"` whose characters are unmapped, the caret position recorded for
index 1 equals the one for index 0, and the strict-first-minimum scan of
`getIndexAtPos` returns 0, not 1. -/
theorem caret_round_trip_fails_unmapped :
    getIndexAtPos (computeLayout unmappedTA).2
      (computeLayout unmappedTA).2.lastCaretPos.1
      (computeLayout unmappedTA).2.lastCaretPos.2 = 0 ∧
    ¬ getIndexAtPos (computeLayout unmappedTA).2
      (computeLayout unmappedTA).2.lastCaretPos.1
      (computeLayout unmappedTA).2.lastCaretPos.2 = 1 :=
  ⟨by decide, by decide⟩

/-- Claim C9 (amended): for unwrapped single-line text whose characters all
map to glyphs with strictly positive advance — exactly the texts where
distinct indices record distinct caret positions — feeding the caret
position recorded for index `i` by `computeLayout` back into `getIndexAtPos`
returns `i`. -/
theorem caret_round_trip (ta : TextArea) (i : ℕ)
    (hw : ta.wordWrap = false)
    (hnl : '\n' ∉ ta.text)
    (hpos : ∀ c ∈ ta.text, 0 < advOf ta.charMap c)
    (hi : i < ta.text.length) :
    getIndexAtPos (computeLayout { ta with caretIndex := i }).2
      (computeLayout { ta with caretIndex := i }).2.lastCaretPos.1
      (computeLayout { ta with caretIndex := i }).2.lastCaretPos.2 = i := by
  obtain ⟨hvm, hcp⟩ := computeLayout_unwrapped { ta with caretIndex := i } hw hnl hi
  dsimp only at hvm hcp
  rw [xposEntries_split ta.charMap ta.text i hi] at hvm
  rw [List.append_assoc, List.cons_append] at hvm
  have hpre : ∀ e ∈ (List.range' 0 i).map
      (fun j => (⟨0 + j, 0 + advSum ta.charMap (ta.text.take j), 0⟩ : VisualEntry)),
      0 < distSq (advSum ta.charMap (ta.text.take i)) 0 e := by
    intro e he
    obtain ⟨j, hj, rfl⟩ := List.mem_map.mp he
    rw [List.mem_range'] at hj
    obtain ⟨k, hk, hjk⟩ := hj
    have hji : j < i := by omega
    have hlt : advSum ta.charMap (ta.text.take j) < advSum ta.charMap (ta.text.take i) :=
      advSum_take_strict ta.charMap ta.text hpos hji (le_of_lt hi)
    have hsq : 0 < (advSum ta.charMap (ta.text.take i) -
        (0 + advSum ta.charMap (ta.text.take j))) ^ 2 := by
      apply lt_of_le_of_ne (sq_nonneg _)
      symm
      apply pow_ne_zero
      omega
    unfold distSq
    dsimp only
    simpa using hsq
  have htarget0 : distSq (advSum ta.charMap (ta.text.take i)) 0
      (⟨0 + i, 0 + advSum ta.charMap (ta.text.take i), 0⟩ : VisualEntry) = 0 := by
    unfold distSq
    simp
  have hfold : ((computeLayout { ta with caretIndex := i }).2.visualMap).foldl
      (bestStep (advSum ta.charMap (ta.text.take i)) 0) none = some (0 + i, 0) := by
    rw [hvm]
    exact foldl_bestStep_unique _ _ _ _ _ hpre htarget0
  rw [hcp]
  dsimp only
  rw [getIndexAtPos_eq _ _ _ (0 + i) 0 (by rw [hvm]; simp) hfold]
  rw [computeLayout_text]
  dsimp only
  omega

/-- Concrete instantiation of the caret round-trip on `"aa"` with a one-glyph
font, at caret index 1. -/
theorem caret_round_trip_witness :
    (({ mkTextArea ⟨20, 100, 100, [⟨'a', 8, 10, 0, 0, 10, 0, 0⟩]⟩ with
        text := ['a', 'a'], wordWrap := false } : TextArea).wordWrap = false ∧
      '\n' ∉ ({ mkTextArea ⟨20, 100, 100, [⟨'a', 8, 10, 0, 0, 10, 0, 0⟩]⟩ with
        text := ['a', 'a'], wordWrap := false } : TextArea).text ∧
      (∀ c ∈ ({ mkTextArea ⟨20, 100, 100, [⟨'a', 8, 10, 0, 0, 10, 0, 0⟩]⟩ with
          text := ['a', 'a'], wordWrap := false } : TextArea).text,
        0 < advOf ({ mkTextArea ⟨20, 100, 100, [⟨'a', 8, 10, 0, 0, 10, 0, 0⟩]⟩ with
          text := ['a', 'a'], wordWrap := false } : TextArea).charMap c) ∧
      1 < ({ mkTextArea ⟨20, 100, 100, [⟨'a', 8, 10, 0, 0, 10, 0, 0⟩]⟩ with
          text := ['a', 'a'], wordWrap := false } : TextArea).text.length) ∧
    getIndexAtPos
      (computeLayout { ({ mkTextArea ⟨20, 100, 100, [⟨'a', 8, 10, 0, 0, 10, 0, 0⟩]⟩ with
        text := ['a', 'a'], wordWrap := false } : TextArea) with caretIndex := 1 }).2
      (computeLayout { ({ mkTextArea ⟨20, 100, 100, [⟨'a', 8, 10, 0, 0, 10, 0, 0⟩]⟩ with
        text := ['a', 'a'], wordWrap := false } : TextArea) with caretIndex := 1 }).2.lastCaretPos.1
      (computeLayout { ({ mkTextArea ⟨20, 100, 100, [⟨'a', 8, 10, 0, 0, 10, 0, 0⟩]⟩ with
        text := ['a', 'a'], wordWrap := false } : TextArea) with caretIndex := 1 }).2.lastCaretPos.2 = 1 :=
  ⟨⟨by decide, by decide, by decide, by decide⟩,
    caret_round_trip _ 1 (by decide) (by decide) (by decide) (by decide)⟩

/-! #### Word-wrap bound -/

theorem processChar_glyphs_bound (ta : TextArea) (lh : ℤ) (c : Char) (idx : ℕ)
    (st : LayoutState) (hwrap : ta.wordWrap = true)
    (hc : advOf ta.charMap c ≤ ta.width) :
    ∀ g ∈ (processChar ta lh c idx st).glyphs,
      g ∈ st.glyphs ∨ g.x + g.char.xadvance ≤ ta.width := by
  unfold processChar
  cases hcd : alistGet ta.charMap c with
  | none =>
    dsimp only
    intro g hg
    left
    revert hg
    split <;> (intro hg; exact hg)
  | some d =>
    have hadv : d.xadvance ≤ ta.width := by
      unfold advOf at hc
      rw [hcd] at hc
      exact hc
    dsimp only
    by_cases hwc : ta.wordWrap = true ∧ st.cursorX + d.xadvance > ta.width ∧ st.cursorX > 0
    · rw [if_pos hwc]
      intro g hg
      revert hg
      split <;> split <;>
        (try (intro hg; exact Or.inl hg)) <;>
        (intro hg
         rcases List.mem_append.mp hg with hg | hg
         · exact Or.inl hg
         · simp only [List.mem_singleton] at hg
           subst hg
           right
           simpa using hadv)
    · rw [if_neg hwc]
      have hx : st.cursorX + d.xadvance ≤ ta.width ∨ st.cursorX ≤ 0 := by
        by_cases h1 : st.cursorX ≤ 0
        · exact Or.inr h1
        · left
          by_contra h2
          exact hwc ⟨hwrap, by omega, by omega⟩
      intro g hg
      revert hg
      split <;> split <;>
        (try (intro hg; exact Or.inl hg)) <;>
        (intro hg
         rcases List.mem_append.mp hg with hg | hg
         · exact Or.inl hg
         · simp only [List.mem_singleton] at hg
           subst hg
           right
           simp only []
           rcases hx with hx | hx
           · exact hx
           · omega)

theorem layoutChars_glyphs_bound (ta : TextArea) (lh : ℤ) (word : List Char) (idx : ℕ)
    (st : LayoutState) (hwrap : ta.wordWrap = true)
    (hword : ∀ c ∈ word, advOf ta.charMap c ≤ ta.width) :
    ∀ g ∈ (layoutChars ta lh word idx st).glyphs,
      g ∈ st.glyphs ∨ g.x + g.char.xadvance ≤ ta.width := by
  induction word generalizing idx st with
  | nil =>
    intro g hg
    exact Or.inl hg
  | cons c rest ih =>
    intro g hg
    have hrest : ∀ c' ∈ rest, advOf ta.charMap c' ≤ ta.width :=
      fun c' hc' => hword c' (List.mem_cons_of_mem c hc')
    rcases ih (idx + 1) (processChar ta lh c idx st) hrest g hg with hg' | hb
    · exact processChar_glyphs_bound ta lh c idx st hwrap
        (hword c (List.mem_cons_self c rest)) g hg'
    · exact Or.inr hb

theorem layoutWords_glyphs_bound (ta : TextArea) (lh : ℤ) (words : List (List Char))
    (sp : ℕ) (st : LayoutState) (hwrap : ta.wordWrap = true)
    (hwords : ∀ w ∈ words, ∀ c ∈ w, advOf ta.charMap c ≤ ta.width) :
    ∀ g ∈ ((layoutWords ta lh words sp st).2).glyphs,
      g ∈ st.glyphs ∨ g.x + g.char.xadvance ≤ ta.width := by
  induction words generalizing sp st with
  | nil =>
    intro g hg
    exact Or.inl hg
  | cons w rest ih =>
    intro g hg
    have hrest : ∀ w' ∈ rest, ∀ c ∈ w', advOf ta.charMap c ≤ ta.width :=
      fun w' hw' => hwords w' (List.mem_cons_of_mem w hw')
    rcases ih (sp + w.length) _ hrest g hg with hg' | hb
    · rcases layoutChars_glyphs_bound ta lh w sp _ hwrap
        (hwords w (List.mem_cons_self w rest)) g hg' with hg'' | hb
      · left
        revert hg''
        split <;> (intro hg''; exact hg'')
      · exact Or.inr hb
    · exact Or.inr hb

theorem layoutLine_glyphs_bound (ta : TextArea) (lh : ℤ) (line : List Char) (sp : ℕ)
    (st : LayoutState) (hwrap : ta.wordWrap = true)
    (hline : ∀ c ∈ line, advOf ta.charMap c ≤ ta.width) :
    ∀ g ∈ ((layoutLine ta lh line sp st).2).glyphs,
      g ∈ st.glyphs ∨ g.x + g.char.xadvance ≤ ta.width := by
  have hwords : ∀ w ∈ (if ta.wordWrap then splitWsCapture line else [line]),
      ∀ c ∈ w, advOf ta.charMap c ≤ ta.width := by
    intro w hw c hc
    refine hline c ?_
    rw [if_pos hwrap] at hw
    exact mem_of_mem_splitWsCapture hw hc
  have hbase := layoutWords_glyphs_bound ta lh
    (if ta.wordWrap then splitWsCapture line else [line]) sp { st with cursorX := 0 }
    hwrap hwords
  unfold layoutLine
  rcases hp : layoutWords ta lh (if ta.wordWrap then splitWsCapture line else [line]) sp
      { st with cursorX := 0 } with ⟨sp1, st1⟩
  rw [hp] at hbase
  dsimp only at hbase ⊢
  intro g hg
  have hg1 : g ∈ st1.glyphs := by
    revert hg
    split <;> (intro hg; exact hg)
  exact hbase g hg1

theorem layoutLines_glyphs_bound (ta : TextArea) (lh : ℤ) (lines : List (List Char))
    (sp : ℕ) (st : LayoutState) (hwrap : ta.wordWrap = true)
    (hlines : ∀ l ∈ lines, ∀ c ∈ l, advOf ta.charMap c ≤ ta.width) :
    ∀ g ∈ ((layoutLines ta lh lines sp st).2).glyphs,
      g ∈ st.glyphs ∨ g.x + g.char.xadvance ≤ ta.width := by
  induction lines generalizing sp st with
  | nil =>
    intro g hg
    exact Or.inl hg
  | cons line rest ih =>
    unfold layoutLines
    rcases hp : layoutLine ta lh line sp st with ⟨sp1, st1⟩
    dsimp only
    intro g hg
    have hrest : ∀ l ∈ rest, ∀ c ∈ l, advOf ta.charMap c ≤ ta.width :=
      fun l hl => hlines l (List.mem_cons_of_mem line hl)
    rcases ih sp1 st1 hrest g hg with hg' | hb
    · have hl := layoutLine_glyphs_bound ta lh line sp st hwrap
        (hlines line (List.mem_cons_self line rest))
      rw [hp] at hl
      exact hl g hg'
    · exact Or.inr hb

/-- Claim C2: with word wrap enabled and the box at least as wide as every
glyph advance occurring in the text, every glyph emitted by `computeLayout`
satisfies `x + xadvance ≤ boxWidth`. -/
theorem word_wrap_glyphs_fit (ta : TextArea)
    (hwrap : ta.wordWrap = true)
    (hadv : ∀ c ∈ ta.text, advOf ta.charMap c ≤ ta.width) :
    ∀ g ∈ (computeLayout ta).1, g.x + g.char.xadvance ≤ ta.width := by
  have hlines : ∀ l ∈ splitLines ta.text, ∀ c ∈ l, advOf ta.charMap c ≤ ta.width :=
    fun l hl c hc => hadv c (mem_of_mem_splitLines hl hc)
  have hbase := layoutLines_glyphs_bound ta (ta.fontData.lineHeight * ta.lineSpacing)
    (splitLines ta.text) 0 ⟨[], [], (0, 0), 0, 0⟩ hwrap hlines
  unfold computeLayout
  rcases hp : layoutLines ta (ta.fontData.lineHeight * ta.lineSpacing)
      (splitLines ta.text) 0 ⟨[], [], (0, 0), 0, 0⟩ with ⟨sp, st⟩
  rw [hp] at hbase
  dsimp only at hbase ⊢
  intro g hg
  have hg1 : g ∈ st.glyphs := by
    revert hg
    split <;> (intro hg; exact hg)
  rcases hbase g hg1 with hg' | hb
  · cases hg'
  · exact hb

/-- Concrete instantiation: three 10-wide glyphs in a 10-wide box wrap to
one glyph per line, each fitting exactly. -/
theorem word_wrap_glyphs_fit_witness :
    (({ mkTextArea ⟨20, 100, 100, [⟨'a', 8, 10, 0, 0, 10, 0, 0⟩]⟩ with
        text := ['a', 'a', 'a'], width := 10 } : TextArea).wordWrap = true ∧
      ∀ c ∈ ({ mkTextArea ⟨20, 100, 100, [⟨'a', 8, 10, 0, 0, 10, 0, 0⟩]⟩ with
        text := ['a', 'a', 'a'], width := 10 } : TextArea).text,
        advOf ({ mkTextArea ⟨20, 100, 100, [⟨'a', 8, 10, 0, 0, 10, 0, 0⟩]⟩ with
          text := ['a', 'a', 'a'], width := 10 } : TextArea).charMap c ≤
          ({ mkTextArea ⟨20, 100, 100, [⟨'a', 8, 10, 0, 0, 10, 0, 0⟩]⟩ with
            text := ['a', 'a', 'a'], width := 10 } : TextArea).width) ∧
    ∀ g ∈ (computeLayout ({ mkTextArea ⟨20, 100, 100, [⟨'a', 8, 10, 0, 0, 10, 0, 0⟩]⟩ with
        text := ['a', 'a', 'a'], width := 10 } : TextArea)).1,
      g.x + g.char.xadvance ≤
        ({ mkTextArea ⟨20, 100, 100, [⟨'a', 8, 10, 0, 0, 10, 0, 0⟩]⟩ with
          text := ['a', 'a', 'a'], width := 10 } : TextArea).width :=
  ⟨⟨by decide, by decide⟩,
    word_wrap_glyphs_fit _ (by decide) (by decide)⟩

end MsdfSpec
